import Mathlib

/-!
Verification of the json-parser repository (src/main.rs): a JSON validator
made of a character tokenizer and a recursive-descent grammar checker.

Modelling conventions:
- The input `String` is embedded as `List Char`; positions are character
  indices (the Rust code mixes `chars().nth` with byte slicing, which agree
  on ASCII input, the only kind the claims concern).
- The Rust tokenizer loop (`Tokenizer::next_token`) is embedded as a single
  loop-body function `tokStep` plus an iteration function `next_token_iter`
  indexed by the number of remaining loop iterations.  `next_token` wraps the
  iteration at a provably sufficient bound and returns `NTRes.diverge` when
  the loop never exits (the catch-all arm of the Rust `match` leaves the
  state unchanged, so the loop can genuinely spin forever).  The lemmas
  `next_token_iter_complete` and `next_token_diverge_iff` justify the
  wrapper against the iteration.
- `consume_f64(..).unwrap()` aborting on a nom error is modelled as the
  result `NTRes.fatal` (the call terminates abnormally, with no token).
- The parser (`Parser` over `Peekable<impl Iterator<Item = Token>>`) is
  embedded as functions over `PState` (tokenizer state plus the lookahead
  buffer of `Peekable`), with a fuel argument bounding recursion depth of
  the mutually recursive productions; `none` means the fuel ran out.
-/

/-- The `Token` enumeration from src/main.rs (payload-free token kinds). -/
inductive Token where
  | Number
  | Boolean
  | Null
  | Stringy
  | BeginObject
  | EndObject
  | BeginArray
  | EndArray
  | ValueSeparator
  | NameSeparator
deriving DecidableEq, Repr

/-- Rust `derive(Debug)` rendering of a `Token`, as used in error messages. -/
def Token.debugStr : Token → String
  | .Number => "Number"
  | .Boolean => "Boolean"
  | .Null => "Null"
  | .Stringy => "Stringy"
  | .BeginObject => "BeginObject"
  | .EndObject => "EndObject"
  | .BeginArray => "BeginArray"
  | .EndArray => "EndArray"
  | .ValueSeparator => "ValueSeparator"
  | .NameSeparator => "NameSeparator"

/-- Rust `derive(Debug)` rendering of an `Option<Token>`. -/
def optionTokenDebug : Option Token → String
  | some t => "Some(" ++ t.debugStr ++ ")"
  | none => "None"

/-- `nom::character::complete::digit1`: consume one or more ASCII digits,
maximally; fail (recoverably) if the first character is not a digit. -/
def digit1 : List Char → Option (List Char)
  | [] => none
  | c :: r => if c.isDigit then some ((c :: r).dropWhile Char.isDigit) else none

/-- `nom::combinator::opt` around `char '-'`: consume a leading `'-'` when
present, otherwise consume nothing. -/
def optDash : List Char → List Char
  | [] => []
  | c :: r => if c = '-' then r else c :: r

/-- `opt(tuple((char '.', digit1)))`: consume `'.'` followed by one-or-more
digits; backtrack (consume nothing, `getD` falling back to the original
input) when the pair does not fully match. -/
def optFrac : List Char → List Char
  | [] => []
  | c :: r => if c = '.' then (digit1 r).getD (c :: r) else c :: r

/-- `opt(one_of "+-")` inside the exponent tuple. -/
def optSign : List Char → List Char
  | [] => []
  | c :: r => if c = '+' ∨ c = '-' then r else c :: r

/-- `opt(tuple((one_of "eE", opt(one_of "+-"), digit1)))`: consume an
exponent marker, an optional sign and one-or-more digits; backtrack
(consume nothing) when the tuple does not fully match. -/
def optExp : List Char → List Char
  | [] => []
  | c :: r => if c = 'e' ∨ c = 'E' then (digit1 (optSign r)).getD (c :: r) else c :: r

/-- `consume_f64` from src/main.rs: the nom matcher
`tuple((opt(char '-'), digit1, opt(tuple((char '.', digit1))),
opt(tuple((one_of "eE", opt(one_of "+-"), digit1)))))`, returning the
unconsumed remainder.  The whole tuple fails exactly when `digit1` finds no
integer digits (the `opt` parts never fail). -/
def consume_f64 (s : List Char) : Option (List Char) :=
  (digit1 (optDash s)).map (fun s2 => optExp (optFrac s2))

/-- The `Tokenizer` struct: remaining input and cursor position. -/
structure Tokenizer where
  input : List Char
  position : Nat
deriving DecidableEq, Repr

/-- `Tokenizer::new`. -/
def Tokenizer.new (s : String) : Tokenizer :=
  ⟨s.toList, 0⟩

/-- Possible outcomes of one `next_token` call: a token, the end-of-stream
signal (`None` in Rust) with the final tokenizer state, an abnormal abort
(the `unwrap()` on a failed `consume_f64`), or non-termination of the scan
loop. -/
inductive NTRes where
  | tok (t : Token) (st : Tokenizer)
  | eos (st : Tokenizer)
  | fatal
  | diverge
deriving DecidableEq, Repr

/-- The inner scan of the string-literal arm: from character index `q`,
advance until a closing quote; `some p` is the cursor position just past the
closing quote, `none` means the input was exhausted first.  `scanStringAux`
walks the list `input.drop q` while tracking the absolute index `q`. -/
def scanStringAux : List Char → Nat → Option Nat
  | [], _ => none
  | c :: rest, q => if c = '"' then some (q + 1) else scanStringAux rest (q + 1)

def scanStringFrom (input : List Char) (q : Nat) : Option Nat :=
  scanStringAux (input.drop q) q

/-- Result of one iteration of the `while let` loop in `next_token`:
either the loop continues with a new state, or the call returns. -/
inductive StepRes where
  | again (st : Tokenizer)
  | done (r : NTRes)
deriving DecidableEq, Repr

/-- One iteration of the loop body of `Tokenizer::next_token`
(the `match c` in src/main.rs, arms in source order).  Note the catch-all
arm `_ => {}` leaves the state unchanged. -/
def tokStep (st : Tokenizer) : StepRes :=
  match st.input[st.position]? with
  | none => .done (.eos st)
  | some c =>
    if c = ' ' ∨ c = '\n' ∨ c = '\t' then
      .again ⟨st.input, st.position + 1⟩
    else if c = '{' then .done (.tok .BeginObject ⟨st.input, st.position + 1⟩)
    else if c = '}' then .done (.tok .EndObject ⟨st.input, st.position + 1⟩)
    else if c = '[' then .done (.tok .BeginArray ⟨st.input, st.position + 1⟩)
    else if c = ']' then .done (.tok .EndArray ⟨st.input, st.position + 1⟩)
    else if c = ':' then .done (.tok .NameSeparator ⟨st.input, st.position + 1⟩)
    else if c = ',' then .done (.tok .ValueSeparator ⟨st.input, st.position + 1⟩)
    else if c = 'n' then .done (.tok .Null ⟨st.input, st.position + 4⟩)
    else if c = 't' ∨ c = 'f' then .done (.tok .Boolean ⟨st.input, st.position + 4⟩)
    else if c = '"' then
      match scanStringFrom st.input (st.position + 1) with
      | some p => .done (.tok .Stringy ⟨st.input, p⟩)
      | none => .again ⟨st.input, st.input.length⟩
    else if c.isDigit ∨ c = '-' then
      match consume_f64 (st.input.drop st.position) with
      | some rest => .done (.tok .Number ⟨rest, 0⟩)
      | none => .done .fatal
    else .again st

/-- Iterate the loop body at most `f` times; `none` means the loop has not
returned after `f` iterations. -/
def next_token_iter : Nat → Tokenizer → Option NTRes
  | 0, _ => none
  | f + 1, st =>
    match tokStep st with
    | .done r => some r
    | .again st2 => next_token_iter f st2

/-- Characters of the input not yet passed by the cursor. -/
def Tokenizer.rest (st : Tokenizer) : List Char :=
  st.input.drop st.position

/-- `Tokenizer::next_token`.  `st.input.length - st.position + 1` loop
iterations always suffice for a terminating run (each non-returning
iteration other than the catch-all arm strictly shrinks the unread
remainder, see `next_token_iter_complete`), so a `none` here means the loop
reached the catch-all arm with an unhandled character and spins forever
(`next_token_diverge_iff`). -/
def next_token (st : Tokenizer) : NTRes :=
  match next_token_iter (st.input.length - st.position + 1) st with
  | some r => r
  | none => .diverge

/-- The tokenizer state reached by a `next_token` call that returned
normally (a token or end-of-stream). -/
def NTRes.state? : NTRes → Option Tokenizer
  | .tok _ st => some st
  | .eos st => some st
  | .fatal => none
  | .diverge => none

/-- The successor state of a `next_token` call, as used when the call is
repeated: normal outcomes carry their state, abnormal ones have no
successor state (the run has ended), kept as the same state here so that
iteration is total. -/
def nextState (st : Tokenizer) : Tokenizer :=
  match (next_token st).state? with
  | some st2 => st2
  | none => st

/-- The parser state: the `Peekable<impl Iterator<Item = Token>>` over
`std::iter::from_fn(|| tokenizer.next_token())` is a tokenizer plus the
peek buffer (`peeked : some x` means the iterator has cached `x`, with `x`
itself an `Option Token` exactly as in `Peekable`). -/
structure PState where
  tk : Tokenizer
  peeked : Option (Option Token)
deriving DecidableEq, Repr

/-- A parser computation result: `Ok`-with-value-and-state, an
`anyhow::Error` from `bail!`/`context` with its message, an abnormal abort
inherited from the tokenizer's `unwrap()`, or non-termination inherited
from the tokenizer's scan loop. -/
inductive PRes (α : Type) where
  | ok (a : α) (s : PState)
  | err (msg : String)
  | fatal
  | diverge
deriving DecidableEq, Repr

/-- `Peekable::next`: take the cached element if present, else pull one
token from the tokenizer. -/
def pullToken (s : PState) : PRes (Option Token) :=
  match s.peeked with
  | some x => .ok x ⟨s.tk, none⟩
  | none =>
    match next_token s.tk with
    | .tok t st2 => .ok (some t) ⟨st2, none⟩
    | .eos st2 => .ok none ⟨st2, none⟩
    | .fatal => .fatal
    | .diverge => .diverge

/-- The message produced by `bail!("Expecting token {:?}. Got {:?}", token, t)`. -/
def mismatchMsg (expected : Token) (got : Option Token) : String :=
  "Expecting token " ++ expected.debugStr ++ ". Got " ++ optionTokenDebug got

/-- `Parser::consume_token`. -/
def consume_token (token : Token) (s : PState) : PRes Unit :=
  match pullToken s with
  | .ok (some t) s2 =>
    if t = token then .ok () s2 else .err (mismatchMsg token (some t))
  | .ok none _ => .err (mismatchMsg token none)
  | .err m => .err m
  | .fatal => .fatal
  | .diverge => .diverge

/-- The message produced by the `context(..)` in `Parser::peek`. -/
def peekEmptyMsg : String :=
  "Expecting to peek a token but there aren't any more."

/-- `Parser::peek`: `Peekable::peek` (pulling into the cache when the cache
is empty) followed by `context(..)` turning an exhausted stream into an
error. -/
def peek (s : PState) : PRes Token :=
  match s.peeked with
  | some (some t) => .ok t s
  | some none => .err peekEmptyMsg
  | none =>
    match next_token s.tk with
    | .tok t st2 => .ok t ⟨st2, some (some t)⟩
    | .eos _ => .err peekEmptyMsg
    | .fatal => .fatal
    | .diverge => .diverge

/-- Sequencing of a total parser primitive into a fuel-indexed computation
(`?` on a `Result` in Rust: errors and aborts propagate). -/
def bindT {α β : Type} (x : PRes α) (k : α → PState → Option (PRes β)) :
    Option (PRes β) :=
  match x with
  | .ok a s => k a s
  | .err m => some (.err m)
  | .fatal => some .fatal
  | .diverge => some .diverge

/-- Sequencing of two fuel-indexed computations (`none` = out of fuel). -/
def bindO {α β : Type} (x : Option (PRes α)) (k : α → PState → Option (PRes β)) :
    Option (PRes β) :=
  match x with
  | none => none
  | some r => bindT r k

/-- Names for the mutually recursive productions of the grammar checker. -/
inductive ParseCall where
  | json
  | jsonLoop
  | member
  | array
  | arrayLoop
  | expr
deriving DecidableEq, Repr

/-- The recursive-descent grammar checker of src/main.rs, one tag per Rust
method (`jsonLoop`/`arrayLoop` are the `while self.peek()? == &ValueSeparator`
loops inside `parse_json`/`parse_array`).  The fuel argument bounds the
recursion depth; `none` means the bound was reached. -/
def parseF : Nat → ParseCall → PState → Option (PRes Unit)
  | 0, _, _ => none
  | f + 1, .json, s =>
    bindT (consume_token .BeginObject s) fun _ s1 =>
    bindO (parseF f .member s1) fun _ s2 =>
    bindO (parseF f .jsonLoop s2) fun _ s3 =>
    some (consume_token .EndObject s3)
  | f + 1, .jsonLoop, s =>
    bindT (peek s) fun t s1 =>
      if t = .ValueSeparator then
        bindT (consume_token .ValueSeparator s1) fun _ s2 =>
        bindO (parseF f .member s2) fun _ s3 =>
        parseF f .jsonLoop s3
      else some (.ok () s1)
  | f + 1, .member, s =>
    bindT (consume_token .Stringy s) fun _ s1 =>
    bindT (consume_token .NameSeparator s1) fun _ s2 =>
    parseF f .expr s2
  | f + 1, .array, s =>
    bindT (consume_token .BeginArray s) fun _ s1 =>
    bindT (peek s1) fun t s2 =>
      if t = .EndArray then some (consume_token .EndArray s2)
      else
        bindO (parseF f .expr s2) fun _ s3 =>
        bindO (parseF f .arrayLoop s3) fun _ s4 =>
        some (consume_token .EndArray s4)
  | f + 1, .arrayLoop, s =>
    bindT (peek s) fun t s1 =>
      if t = .ValueSeparator then
        bindT (consume_token .ValueSeparator s1) fun _ s2 =>
        bindO (parseF f .expr s2) fun _ s3 =>
        parseF f .arrayLoop s3
      else some (.ok () s1)
  | f + 1, .expr, s =>
    bindT (peek s) fun t s1 =>
      match t with
      | .BeginArray => parseF f .array s1
      | .BeginObject => parseF f .json s1
      | .Number => some (consume_token .Number s1)
      | .Boolean => some (consume_token .Boolean s1)
      | .Null => some (consume_token .Null s1)
      | .Stringy => some (consume_token .Stringy s1)
      | t2 => some (.err ("Expecting an expression. Got " ++ t2.debugStr ++ "."))

/-- `Parser::parse_json` run with fuel `f`. -/
def parse_json (f : Nat) (s : PState) : Option (PRes Unit) :=
  parseF f .json s

/-- `Parser::parse_array` run with fuel `f`. -/
def parse_array (f : Nat) (s : PState) : Option (PRes Unit) :=
  parseF f .array s

/-- The wiring of the repository's parser test and `main`: a fresh
tokenizer over the input string, wrapped in a `Peekable` with an empty
cache, handed to the parser. -/
def initP (str : String) : PState :=
  ⟨Tokenizer.new str, none⟩

theorem getElem?_some_lt {l : List Char} {n : Nat} {c : Char}
    (h : l[n]? = some c) : n < l.length := by
  by_contra hc
  rw [List.getElem?_eq_none (by omega)] at h
  exact Option.noConfusion h

theorem scanStringAux_gt {l : List Char} {q p : Nat}
    (h : scanStringAux l q = some p) : q < p := by
  induction l generalizing q with
  | nil => simp [scanStringAux] at h
  | cons c rest ih =>
    rw [scanStringAux] at h
    by_cases hc : c = '"'
    · rw [if_pos hc] at h
      cases h
      omega
    · rw [if_neg hc] at h
      have := ih h
      omega

theorem digit1_suffix {s r : List Char} (h : digit1 s = some r) : r <:+ s := by
  cases s with
  | nil => exact Option.noConfusion h
  | cons c rest =>
    rw [digit1] at h
    by_cases hc : c.isDigit
    · rw [if_pos hc] at h
      injection h with h2
      subst h2
      exact List.dropWhile_suffix _
    · rw [if_neg hc] at h
      exact Option.noConfusion h

theorem optDash_suffix (s : List Char) : optDash s <:+ s := by
  cases s with
  | nil => exact List.suffix_refl _
  | cons c r =>
    rw [optDash]
    by_cases hc : c = '-'
    · rw [if_pos hc]
      exact List.tail_suffix (c :: r)
    · rw [if_neg hc]

theorem optSign_suffix (s : List Char) : optSign s <:+ s := by
  cases s with
  | nil => exact List.suffix_refl _
  | cons c r =>
    rw [optSign]
    by_cases hc : c = '+' ∨ c = '-'
    · rw [if_pos hc]
      exact List.tail_suffix (c :: r)
    · rw [if_neg hc]

theorem optFrac_suffix (s : List Char) : optFrac s <:+ s := by
  cases s with
  | nil => exact List.suffix_refl _
  | cons c r =>
    rw [optFrac]
    by_cases hc : c = '.'
    · rw [if_pos hc]
      cases hd : digit1 r with
      | some s2 =>
        rw [Option.getD_some]
        exact (digit1_suffix hd).trans (List.tail_suffix (c :: r))
      | none =>
        rw [Option.getD_none]
    · rw [if_neg hc]

theorem optExp_suffix (s : List Char) : optExp s <:+ s := by
  cases s with
  | nil => exact List.suffix_refl _
  | cons c r =>
    rw [optExp]
    by_cases hc : c = 'e' ∨ c = 'E'
    · rw [if_pos hc]
      cases hd : digit1 (optSign r) with
      | some s2 =>
        rw [Option.getD_some]
        exact ((digit1_suffix hd).trans (optSign_suffix r)).trans
          (List.tail_suffix (c :: r))
      | none =>
        rw [Option.getD_none]
    · rw [if_neg hc]

theorem consume_f64_suffix {s r : List Char} (h : consume_f64 s = some r) :
    r <:+ s := by
  rw [consume_f64] at h
  cases hd : digit1 (optDash s) with
  | none => rw [hd] at h; exact Option.noConfusion h
  | some s2 =>
    rw [hd, Option.map_some'] at h
    injection h with h2
    subst h2
    exact ((optExp_suffix _).trans (optFrac_suffix _)).trans
      ((digit1_suffix hd).trans (optDash_suffix s))

/-- Master case analysis on one loop iteration: every continuing iteration
either strictly shrinks the unread remainder or leaves the state untouched
(the catch-all arm), every produced token leaves a state whose unread
remainder is a suffix of the previous one, and end-of-stream leaves the
state unchanged. -/
theorem tokStep_cases (st : Tokenizer) :
    (∃ st2, tokStep st = .again st2 ∧ st2.input = st.input ∧
      st.input.length - st2.position < st.input.length - st.position ∧
      st2.rest <:+ st.rest)
    ∨ tokStep st = .again st
    ∨ (∃ t st2, tokStep st = .done (.tok t st2) ∧ st2.rest <:+ st.rest)
    ∨ tokStep st = .done (.eos st)
    ∨ tokStep st = .done .fatal := by
  cases hg : st.input[st.position]? with
  | none =>
    refine Or.inr (Or.inr (Or.inr (Or.inl ?_)))
    rw [tokStep, hg]
  | some c =>
    have hpos : st.position < st.input.length := getElem?_some_lt hg
    have hstep : tokStep st = (if c = ' ' ∨ c = '\n' ∨ c = '\t' then
        .again ⟨st.input, st.position + 1⟩
      else if c = '{' then .done (.tok .BeginObject ⟨st.input, st.position + 1⟩)
      else if c = '}' then .done (.tok .EndObject ⟨st.input, st.position + 1⟩)
      else if c = '[' then .done (.tok .BeginArray ⟨st.input, st.position + 1⟩)
      else if c = ']' then .done (.tok .EndArray ⟨st.input, st.position + 1⟩)
      else if c = ':' then .done (.tok .NameSeparator ⟨st.input, st.position + 1⟩)
      else if c = ',' then .done (.tok .ValueSeparator ⟨st.input, st.position + 1⟩)
      else if c = 'n' then .done (.tok .Null ⟨st.input, st.position + 4⟩)
      else if c = 't' ∨ c = 'f' then .done (.tok .Boolean ⟨st.input, st.position + 4⟩)
      else if c = '"' then
        match scanStringFrom st.input (st.position + 1) with
        | some p => .done (.tok .Stringy ⟨st.input, p⟩)
        | none => .again ⟨st.input, st.input.length⟩
      else if c.isDigit ∨ c = '-' then
        match consume_f64 (st.input.drop st.position) with
        | some rest => .done (.tok .Number ⟨rest, 0⟩)
        | none => .done .fatal
      else .again st) := by
      rw [tokStep, hg]
    have hsuf1 : st.input.drop (st.position + 1) <:+ st.input.drop st.position :=
      List.drop_suffix_drop_left _ (by omega)
    have hsuf4 : st.input.drop (st.position + 4) <:+ st.input.drop st.position :=
      List.drop_suffix_drop_left _ (by omega)
    by_cases h1 : c = ' ' ∨ c = '\n' ∨ c = '\t'
    · rw [if_pos h1] at hstep
      exact Or.inl ⟨_, hstep, rfl,
        show st.input.length - (st.position + 1) < st.input.length - st.position
          from by omega, hsuf1⟩
    rw [if_neg h1] at hstep
    by_cases h2 : c = '{'
    · rw [if_pos h2] at hstep
      exact Or.inr (Or.inr (Or.inl ⟨_, _, hstep, hsuf1⟩))
    rw [if_neg h2] at hstep
    by_cases h3 : c = '}'
    · rw [if_pos h3] at hstep
      exact Or.inr (Or.inr (Or.inl ⟨_, _, hstep, hsuf1⟩))
    rw [if_neg h3] at hstep
    by_cases h4 : c = '['
    · rw [if_pos h4] at hstep
      exact Or.inr (Or.inr (Or.inl ⟨_, _, hstep, hsuf1⟩))
    rw [if_neg h4] at hstep
    by_cases h5 : c = ']'
    · rw [if_pos h5] at hstep
      exact Or.inr (Or.inr (Or.inl ⟨_, _, hstep, hsuf1⟩))
    rw [if_neg h5] at hstep
    by_cases h6 : c = ':'
    · rw [if_pos h6] at hstep
      exact Or.inr (Or.inr (Or.inl ⟨_, _, hstep, hsuf1⟩))
    rw [if_neg h6] at hstep
    by_cases h7 : c = ','
    · rw [if_pos h7] at hstep
      exact Or.inr (Or.inr (Or.inl ⟨_, _, hstep, hsuf1⟩))
    rw [if_neg h7] at hstep
    by_cases h8 : c = 'n'
    · rw [if_pos h8] at hstep
      exact Or.inr (Or.inr (Or.inl ⟨_, _, hstep, hsuf4⟩))
    rw [if_neg h8] at hstep
    by_cases h9 : c = 't' ∨ c = 'f'
    · rw [if_pos h9] at hstep
      exact Or.inr (Or.inr (Or.inl ⟨_, _, hstep, hsuf4⟩))
    rw [if_neg h9] at hstep
    by_cases h10 : c = '"'
    · rw [if_pos h10] at hstep
      cases hscan : scanStringFrom st.input (st.position + 1) with
      | some p =>
        rw [hscan] at hstep
        have hp : st.position + 1 < p := scanStringAux_gt hscan
        refine Or.inr (Or.inr (Or.inl ⟨_, _, hstep, ?_⟩))
        show st.input.drop p <:+ st.input.drop st.position
        exact List.drop_suffix_drop_left _ (by omega)
      | none =>
        rw [hscan] at hstep
        refine Or.inl ⟨_, hstep, rfl,
          show st.input.length - st.input.length < st.input.length - st.position
            from by omega, ?_⟩
        show st.input.drop st.input.length <:+ st.input.drop st.position
        rw [List.drop_length]
        exact List.nil_suffix
    rw [if_neg h10] at hstep
    by_cases h11 : c.isDigit ∨ c = '-'
    · rw [if_pos h11] at hstep
      cases hnum : consume_f64 (st.input.drop st.position) with
      | some rest =>
        rw [hnum] at hstep
        refine Or.inr (Or.inr (Or.inl ⟨_, _, hstep, ?_⟩))
        show rest.drop 0 <:+ st.input.drop st.position
        rw [List.drop_zero]
        exact consume_f64_suffix hnum
      | none =>
        rw [hnum] at hstep
        exact Or.inr (Or.inr (Or.inr (Or.inr hstep)))
    rw [if_neg h11] at hstep
    exact Or.inr (Or.inl hstep)

theorem next_token_iter_mono {f : Nat} {st : Tokenizer} {r : NTRes}
    (h : next_token_iter f st = some r) :
    next_token_iter (f + 1) st = some r := by
  induction f generalizing st with
  | zero => simp [next_token_iter] at h
  | succ f ih =>
    rw [next_token_iter] at h
    rw [next_token_iter]
    cases hs : tokStep st with
    | done r2 => rw [hs] at h; exact h
    | again st2 => rw [hs] at h; exact ih h

theorem next_token_iter_mono_le {f g : Nat} {st : Tokenizer} {r : NTRes}
    (hfg : f ≤ g) (h : next_token_iter f st = some r) :
    next_token_iter g st = some r := by
  induction g with
  | zero =>
    have : f = 0 := by omega
    subst this
    exact h
  | succ g ih =>
    rcases Nat.lt_or_ge f (g + 1) with hlt | hge
    · exact next_token_iter_mono (ih (by omega))
    · have : f = g + 1 := by omega
      subst this
      exact h

/-- If the loop returns within some number of iterations, then it returns
the same answer within `length - position + 1` iterations: the bound used
by `next_token` is always sufficient. -/
theorem next_token_iter_sufficient {f : Nat} {st : Tokenizer} {r : NTRes}
    (h : next_token_iter f st = some r) :
    next_token_iter (st.input.length - st.position + 1) st = some r := by
  induction f generalizing st with
  | zero => simp [next_token_iter] at h
  | succ f ih =>
    rw [next_token_iter] at h
    rcases tokStep_cases st with ⟨st2, hs, hinp, hlt, _⟩ | hs |
      ⟨t, st2, hs, _⟩ | hs | hs
    · rw [hs] at h
      have h2 := ih h
      rw [hinp] at h2
      rw [next_token_iter, hs]
      exact next_token_iter_mono_le (by omega) h2
    · rw [hs] at h
      exact ih h
    · rw [hs] at h
      rw [next_token_iter, hs]
      exact h
    · rw [hs] at h
      rw [next_token_iter, hs]
      exact h
    · rw [hs] at h
      rw [next_token_iter, hs]
      exact h

/-- The iteration never reports the synthetic `diverge` marker. -/
theorem next_token_iter_ne_diverge {f : Nat} {st : Tokenizer} :
    next_token_iter f st ≠ some .diverge := by
  induction f generalizing st with
  | zero => simp [next_token_iter]
  | succ f ih =>
    rw [next_token_iter]
    rcases tokStep_cases st with ⟨st2, hs, _, _, _⟩ | hs |
      ⟨t, st2, hs, _⟩ | hs | hs <;> rw [hs]
    · exact ih
    · exact ih
    all_goals
      intro hc
      injection hc with hc2
      exact NTRes.noConfusion hc2

/-- Completeness of the wrapper: whenever the loop translation returns an
answer at any iteration bound, `next_token` equals that answer. -/
theorem next_token_iter_complete {f : Nat} {st : Tokenizer} {r : NTRes}
    (h : next_token_iter f st = some r) : next_token st = r := by
  rw [next_token, next_token_iter_sufficient h]

/-- The wrapper reports `diverge` exactly when the loop translation never
returns, at any iteration bound. -/
theorem next_token_diverge_iff {st : Tokenizer} :
    next_token st = .diverge ↔ ∀ f, next_token_iter f st = none := by
  constructor
  · intro h f
    cases hf : next_token_iter f st with
    | none => rfl
    | some r =>
      have := next_token_iter_complete hf
      rw [h] at this
      rw [← this] at hf
      exact absurd hf next_token_iter_ne_diverge
  · intro h
    rw [next_token, h]

/-- Forward-progress core for the cursor invariant: any normal `next_token`
outcome (at any iteration bound) leaves an unread remainder that is a
suffix of the previous one. -/
theorem next_token_iter_rest_suffix {f : Nat} {st : Tokenizer} {r : NTRes}
    {st2 : Tokenizer} (h : next_token_iter f st = some r)
    (h2 : r.state? = some st2) : st2.rest <:+ st.rest := by
  induction f generalizing st with
  | zero => simp [next_token_iter] at h
  | succ f ih =>
    rw [next_token_iter] at h
    rcases tokStep_cases st with ⟨st3, hs, _, _, hsuf⟩ | hs |
      ⟨t, st3, hs, hsuf⟩ | hs | hs <;> rw [hs] at h
    · exact (ih h).trans hsuf
    · exact ih h
    · injection h with h3
      subst h3
      rw [NTRes.state?] at h2
      injection h2 with h4
      subst h4
      exact hsuf
    · injection h with h3
      subst h3
      rw [NTRes.state?] at h2
      injection h2 with h4
      subst h4
      exact List.suffix_refl _
    · injection h with h3
      subst h3
      rw [NTRes.state?] at h2
      exact Option.noConfusion h2

/-- `next_token`-level forward progress. -/
theorem next_token_rest_suffix {st st2 : Tokenizer}
    (h2 : (next_token st).state? = some st2) : st2.rest <:+ st.rest := by
  rw [next_token] at h2
  cases hit : next_token_iter (st.input.length - st.position + 1) st with
  | none =>
    rw [hit] at h2
    rw [NTRes.state?] at h2
    exact Option.noConfusion h2
  | some r =>
    rw [hit] at h2
    exact next_token_iter_rest_suffix hit h2

theorem nextState_rest_suffix (st : Tokenizer) :
    (nextState st).rest <:+ st.rest := by
  rw [nextState]
  cases h : (next_token st).state? with
  | none => exact List.suffix_refl _
  | some st2 => exact next_token_rest_suffix h


theorem next_token_iter_succ_done {f : Nat} {st : Tokenizer} {r : NTRes}
    (h : tokStep st = .done r) : next_token_iter (f + 1) st = some r := by
  rw [next_token_iter, h]

theorem next_token_iter_succ_again {f : Nat} {st st2 : Tokenizer}
    (h : tokStep st = .again st2) :
    next_token_iter (f + 1) st = next_token_iter f st2 := by
  rw [next_token_iter, h]

theorem next_token_of_done {st : Tokenizer} {r : NTRes}
    (h : tokStep st = .done r) : next_token st = r :=
  next_token_iter_complete (next_token_iter_succ_done (f := 0) h)

theorem next_token_eos_of_past {st : Tokenizer}
    (h : st.input.length ≤ st.position) : next_token st = .eos st := by
  apply next_token_of_done
  rw [tokStep, List.getElem?_eq_none h]

theorem nextState_of_past {st : Tokenizer}
    (h : st.input.length ≤ st.position) : nextState st = st := by
  rw [nextState, next_token_eos_of_past h, NTRes.state?]

theorem scanStringAux_none {l : List Char} {q : Nat}
    (h : '"' ∉ l) : scanStringAux l q = none := by
  induction l generalizing q with
  | nil => rfl
  | cons c rest ih =>
    rw [scanStringAux]
    rw [if_neg (by intro hc; exact h (hc ▸ List.mem_cons_self c rest))]
    exact ih (fun hm => h (List.mem_cons_of_mem c hm))

theorem drop_eq_cons_of_getElem? {l : List Char} {n : Nat} {c : Char}
    (h : l[n]? = some c) : l.drop n = c :: l.drop (n + 1) := by
  have hn : n < l.length := getElem?_some_lt h
  rw [List.drop_eq_getElem_cons hn]
  rcases List.getElem?_eq_some_iff.mp h with ⟨h2, h3⟩
  rw [h3]

/-- Reproduction of the repository's own lexer test (`test_tokenizer`): the
six successive `next_token` calls on `{"key": "value"}` and their exact
results, including the end-of-stream signal at the end. -/
theorem repo_lexer_test :
    next_token (Tokenizer.new "\x7b\"key\": \"value\"\x7d") =
      .tok .BeginObject ⟨"\x7b\"key\": \"value\"\x7d".toList, 1⟩ ∧
    next_token ⟨"\x7b\"key\": \"value\"\x7d".toList, 1⟩ =
      .tok .Stringy ⟨"\x7b\"key\": \"value\"\x7d".toList, 6⟩ ∧
    next_token ⟨"\x7b\"key\": \"value\"\x7d".toList, 6⟩ =
      .tok .NameSeparator ⟨"\x7b\"key\": \"value\"\x7d".toList, 7⟩ ∧
    next_token ⟨"\x7b\"key\": \"value\"\x7d".toList, 7⟩ =
      .tok .Stringy ⟨"\x7b\"key\": \"value\"\x7d".toList, 15⟩ ∧
    next_token ⟨"\x7b\"key\": \"value\"\x7d".toList, 15⟩ =
      .tok .EndObject ⟨"\x7b\"key\": \"value\"\x7d".toList, 16⟩ ∧
    next_token ⟨"\x7b\"key\": \"value\"\x7d".toList, 16⟩ =
      .eos ⟨"\x7b\"key\": \"value\"\x7d".toList, 16⟩ := by
  refine ⟨by decide, by decide, by decide, by decide, by decide, by decide⟩

/-- Reproduction of the repository's own parser test (`test_parser`): the
nested document parses successfully (note the final tokenizer state: the
number branch repeatedly replaced the input with the unconsumed remainder). -/
theorem repo_parser_test :
    parse_json 100 (initP "\x7b\"key\": [42,23, [112, true]], \"lala\": \x7b\"a\": [-1e18]\x7d\x7d") =
      some (PRes.ok () ⟨⟨[']', '}', '}'], 3⟩, none⟩) := by
  decide

/-- C1: the claim says every well-formed JSON object validates successfully;
the code disagrees on `{"a": false}` (a well-formed JSON object): the
tokenizer advances exactly 4 positions over `fals`, the leftover `e` hits
the catch-all arm that does not advance the cursor, and the scan loop never
returns, so `parse_json` never returns at all — for every recursion-depth
fuel, the run is pinned to the diverge outcome, never success. -/
theorem claim_C1 :
    (∀ f, parse_json (f + 3) (initP "\x7b\"a\": false\x7d") = some PRes.diverge) ∧
    parse_json 0 (initP "\x7b\"a\": false\x7d") = none ∧
    parse_json 1 (initP "\x7b\"a\": false\x7d") = none ∧
    parse_json 2 (initP "\x7b\"a\": false\x7d") = none :=
  ⟨fun _ => rfl, rfl, rfl, rfl⟩

/-- C2: the claim says an unrecognized character is silently skipped and the
`next_token` call still terminates; in the code the catch-all arm `_ => {}`
leaves the position unchanged, so on input `a` the call never terminates:
the total model reports divergence, and the direct loop translation returns
no answer at any iteration bound. -/
theorem claim_C2 :
    next_token ⟨['a'], 0⟩ = .diverge ∧
    ∀ f, next_token_iter f ⟨['a'], 0⟩ = none := by
  constructor
  · decide
  · intro f
    induction f with
    | zero => rfl
    | succ f ih =>
      rw [next_token_iter_succ_again
        (show tokStep ⟨['a'], 0⟩ = .again ⟨['a'], 0⟩ from by decide)]
      exact ih

/-- C2 witness: instantiating the divergence at iteration bound 5. -/
theorem claim_C2_witness :
    next_token ⟨['a'], 0⟩ = .diverge ∧ next_token_iter 5 ⟨['a'], 0⟩ = none :=
  ⟨claim_C2.1, claim_C2.2 5⟩

/-- C3: whenever the current character is `n`, `next_token` returns `Null`
and advances the cursor by exactly 4, with no constraint whatsoever on the
following characters (the input beyond the `n` is universally quantified);
likewise `t`/`f` yield `Boolean` advancing exactly 4 unconditionally. -/
theorem claim_C3 (st : Tokenizer) :
    (st.input[st.position]? = some 'n' →
      next_token st = .tok .Null ⟨st.input, st.position + 4⟩) ∧
    ((st.input[st.position]? = some 't' ∨ st.input[st.position]? = some 'f') →
      next_token st = .tok .Boolean ⟨st.input, st.position + 4⟩) := by
  refine ⟨fun hg => ?_, fun hg => ?_⟩
  · apply next_token_of_done
    rw [tokStep, hg]
    simp
  · apply next_token_of_done
    rcases hg with hg | hg <;> rw [tokStep, hg] <;> simp

/-- C3 witness: `n` followed by garbage still yields `Null` (position 4),
and a lone `f` yields `Boolean` (position 4, past the end). -/
theorem claim_C3_witness :
    next_token ⟨['n', 'x'], 0⟩ = .tok .Null ⟨['n', 'x'], 4⟩ ∧
    next_token ⟨['f'], 0⟩ = .tok .Boolean ⟨['f'], 4⟩ :=
  ⟨(claim_C3 ⟨['n', 'x'], 0⟩).1 (by decide),
   (claim_C3 ⟨['f'], 0⟩).2 (Or.inr (by decide))⟩

/-- C4: when the current character is a digit or `-` but `consume_f64`
matches no numeric prefix, the `next_token` call ends abnormally (the
`unwrap()` on the nom error aborts the call with the parse error) — it
neither loops forever nor returns a token or end-of-stream. -/
theorem claim_C4 (st : Tokenizer) (c : Char)
    (hg : st.input[st.position]? = some c)
    (hd : c.isDigit ∨ c = '-')
    (hf : consume_f64 (st.input.drop st.position) = none) :
    next_token st = .fatal := by
  have hcd : c = '-' := by
    rcases hd with hd | hd
    · exfalso
      rw [drop_eq_cons_of_getElem? hg] at hf
      have hdash : optDash (c :: st.input.drop (st.position + 1)) =
          c :: st.input.drop (st.position + 1) := by
        rw [optDash, if_neg]
        intro hcc
        subst hcc
        simp at hd
      rw [consume_f64, hdash, digit1, if_pos hd] at hf
      simp at hf
    · exact hd
  subst hcd
  apply next_token_of_done
  rw [tokStep, hg, hf]
  simp

/-- C4 witness: on the spec's example `-a` the numeric matcher fails and the
call ends with the abnormal parse-error outcome. -/
theorem claim_C4_witness :
    consume_f64 ("-a".toList) = none ∧ next_token ⟨"-a".toList, 0⟩ = .fatal :=
  ⟨by decide, claim_C4 ⟨"-a".toList, 0⟩ '-' (by decide) (Or.inr rfl) (by decide)⟩

/-- C5: validation of `{}` fails: after `BeginObject` the object production
unconditionally parses one Member, whose first step demands `Stringy` and
finds `EndObject`, and this mismatch is the outcome at every sufficient
fuel (smaller fuels do not complete, so no fuel ever yields success). -/
theorem claim_C5 :
    (∀ f, parse_json (f + 2) (initP "\x7b\x7d") =
      some (PRes.err (mismatchMsg .Stringy (some .EndObject)))) ∧
    mismatchMsg .Stringy (some .EndObject) =
      "Expecting token Stringy. Got Some(EndObject)" ∧
    parse_json 0 (initP "\x7b\x7d") = none ∧
    parse_json 1 (initP "\x7b\x7d") = none := by
  refine ⟨fun _ => rfl, by decide, rfl, rfl⟩

/-- C6: the array production accepts the empty array: starting right at
`BeginArray` it succeeds with a single fuel step (the `EndArray` peek
short-circuits before any Expr is parsed), and the full document
`{"a": []}` validates successfully at every sufficient fuel. -/
theorem claim_C6 :
    (∀ f, parse_json (f + 4) (initP "\x7b\"a\": []\x7d") =
      some (PRes.ok () ⟨⟨"\x7b\"a\": []\x7d".toList, 9⟩, none⟩)) ∧
    (∀ f, parse_array (f + 1) ⟨⟨"[]".toList, 0⟩, none⟩ =
      some (PRes.ok () ⟨⟨"[]".toList, 2⟩, none⟩)) :=
  ⟨fun _ => rfl, fun _ => rfl⟩

/-- C7: whenever the first token of the input is not `BeginObject` (or the
token stream is empty), `parse_json` fails immediately — at every fuel —
with the mismatch message naming `BeginObject` as expected and reporting
the actual first token (or `None` when there was none). -/
theorem claim_C7 (str : String) :
    (∀ t st2, next_token (Tokenizer.new str) = .tok t st2 → t ≠ .BeginObject →
      ∀ f, parse_json (f + 1) (initP str) =
        some (.err (mismatchMsg .BeginObject (some t)))) ∧
    (∀ st2, next_token (Tokenizer.new str) = .eos st2 →
      ∀ f, parse_json (f + 1) (initP str) =
        some (.err (mismatchMsg .BeginObject none))) := by
  constructor
  · intro t st2 h hne f
    have hc : consume_token .BeginObject (initP str) =
        .err (mismatchMsg .BeginObject (some t)) := by
      simp only [consume_token, pullToken, initP]
      rw [h]
      simp [hne]
    rw [parse_json, parseF, hc]
    rfl
  · intro st2 h f
    have hc : consume_token .BeginObject (initP str) =
        .err (mismatchMsg .BeginObject none) := by
      simp only [consume_token, pullToken, initP]
      rw [h]
    rw [parse_json, parseF, hc]
    rfl

/-- C7 witness: a bare array `[1]` is rejected naming `BeginObject` vs
`BeginArray`, and the empty input is rejected naming `BeginObject` vs
`None`. -/
theorem claim_C7_witness :
    next_token (Tokenizer.new "[1]") = .tok .BeginArray ⟨"[1]".toList, 1⟩ ∧
    parse_json 1 (initP "[1]") =
      some (.err (mismatchMsg .BeginObject (some .BeginArray))) ∧
    mismatchMsg .BeginObject (some .BeginArray) =
      "Expecting token BeginObject. Got Some(BeginArray)" ∧
    next_token (Tokenizer.new "") = .eos ⟨[], 0⟩ ∧
    parse_json 1 (initP "") = some (.err (mismatchMsg .BeginObject none)) ∧
    mismatchMsg .BeginObject none = "Expecting token BeginObject. Got None" :=
  ⟨by decide,
   (claim_C7 "[1]").1 .BeginArray ⟨"[1]".toList, 1⟩ (by decide) (by decide) 0,
   by decide,
   by decide,
   (claim_C7 "").2 ⟨[], 0⟩ (by decide) 0,
   by decide⟩

/-- C8: an opening quote with no closing quote anywhere in the rest of the
input makes the scan consume everything (final position = input length) and
the call returns the end-of-stream signal — no `Stringy` token, no error. -/
theorem claim_C8 (st : Tokenizer)
    (hg : st.input[st.position]? = some '"')
    (hq : '"' ∉ st.input.drop (st.position + 1)) :
    next_token st = .eos ⟨st.input, st.input.length⟩ := by
  have hscan : scanStringFrom st.input (st.position + 1) = none := by
    rw [scanStringFrom]
    exact scanStringAux_none hq
  have h1 : tokStep st = .again ⟨st.input, st.input.length⟩ := by
    rw [tokStep, hg, hscan]
    simp
  have h2 : tokStep ⟨st.input, st.input.length⟩ =
      .done (.eos ⟨st.input, st.input.length⟩) := by
    rw [tokStep, List.getElem?_eq_none (by simp)]
  have h3 : next_token_iter (0 + 1 + 1) st =
      some (.eos ⟨st.input, st.input.length⟩) := by
    rw [next_token_iter_succ_again h1, next_token_iter_succ_done h2]
  exact next_token_iter_complete h3

/-- C8 witness: the unterminated string input consisting of a quote and two
letters is silently exhausted. -/
theorem claim_C8_witness :
    next_token ⟨['"', 'a', 'b'], 0⟩ = .eos ⟨['"', 'a', 'b'], 3⟩ :=
  claim_C8 ⟨['"', 'a', 'b'], 0⟩ (by decide) (by decide)

/-- C9: the cursor only moves forward: the unread remainder left by any
normally returning `next_token` call (token or end-of-stream) is a suffix
of the remainder before the call — consumed characters are never read
again, including through the number branch, which replaces the input with
the matcher's unconsumed remainder and resets the position to zero — and
consequently the remainder after any sequence of calls is a suffix of the
original. -/
theorem claim_C9 :
    (∀ st t st2, next_token st = .tok t st2 → st2.rest <:+ st.rest) ∧
    (∀ st st2, next_token st = .eos st2 → st2.rest <:+ st.rest) ∧
    (∀ st n, (nextState^[n] st).rest <:+ st.rest) := by
  refine ⟨fun st t st2 h => ?_, fun st st2 h => ?_, fun st n => ?_⟩
  · exact next_token_rest_suffix (by rw [h]; rfl)
  · exact next_token_rest_suffix (by rw [h]; rfl)
  · induction n with
    | zero => exact List.suffix_refl _
    | succ n ih =>
      rw [Function.iterate_succ_apply']
      exact (nextState_rest_suffix _).trans ih

/-- C9 witness: through the number branch on `1,` the state is rebuilt as
remainder `,` at position zero, a suffix of the previous remainder. -/
theorem claim_C9_witness :
    next_token ⟨['1', ','], 0⟩ = .tok .Number ⟨[','], 0⟩ ∧
    (Tokenizer.mk [','] 0).rest <:+ (Tokenizer.mk ['1', ','] 0).rest :=
  ⟨by decide, claim_C9.1 ⟨['1', ','], 0⟩ .Number ⟨[','], 0⟩ (by decide)⟩

/-- C10: a keyword character (`n`, `t`, `f`) with fewer than 4 characters
remaining still produces its `Null`/`Boolean` token with the cursor moved
past the end of the input (the model's total functions mirror `chars().nth`
returning `None`: there is no out-of-bounds access), and every subsequent
`next_token` call returns the end-of-stream signal with the state
unchanged. -/
theorem claim_C10 (st : Tokenizer) (c : Char)
    (hg : st.input[st.position]? = some c)
    (hc : c = 'n' ∨ c = 't' ∨ c = 'f')
    (hlen : st.input.length < st.position + 4) :
    next_token st = .tok (if c = 'n' then Token.Null else Token.Boolean)
        ⟨st.input, st.position + 4⟩ ∧
    ∀ k, next_token (nextState^[k] ⟨st.input, st.position + 4⟩) =
      .eos ⟨st.input, st.position + 4⟩ := by
  have hpast : (Tokenizer.mk st.input (st.position + 4)).input.length ≤
      (Tokenizer.mk st.input (st.position + 4)).position := by
    show st.input.length ≤ st.position + 4
    omega
  have hfix : ∀ k, nextState^[k] ⟨st.input, st.position + 4⟩ =
      ⟨st.input, st.position + 4⟩ := by
    intro k
    induction k with
    | zero => rfl
    | succ k ih =>
      rw [Function.iterate_succ_apply', ih, nextState_of_past hpast]
  constructor
  · apply next_token_of_done
    rcases hc with hc | hc | hc <;> subst hc <;> rw [tokStep, hg] <;> simp
  · intro k
    rw [hfix k]
    exact next_token_eos_of_past hpast

/-- C10 witness: a lone `n` yields `Null` with the cursor at 4 (input length
1), and the next call — and every call after it — is end-of-stream. -/
theorem claim_C10_witness :
    next_token ⟨['n'], 0⟩ = .tok Token.Null ⟨['n'], 4⟩ ∧
    next_token ⟨['n'], 4⟩ = .eos ⟨['n'], 4⟩ := by
  have h := claim_C10 ⟨['n'], 0⟩ 'n' (by decide) (Or.inl rfl) (by decide)
  refine ⟨by simpa using h.1, by simpa using h.2 0⟩
